import Mathlib

attribute [local semireducible] Rat.add Rat.sub Rat.mul Rat.inv

set_option maxRecDepth 10000

/-!
Verification of the `SimpleTrading` environment
(src/environment/simpleTrading.py) against its specification.

The class is shallowly embedded: the instance state is the structure `Env`
(one field per Python attribute), pure methods become functions
`Env → Env`, and every method that indexes into the price series returns
`Option Env` (an out-of-range access raises in Python and is `none` here).
Prices, fees, gains and the EMA features are modelled as rationals; the
Python floats only ever undergo the exact arithmetic written in the source.
The Bernoulli draw `np.random.rand()` of `try_to_buy` / `try_to_sell` is an
explicit argument `r`.
-/

/-- The instance state of `SimpleTrading`: one field per attribute set in
`__init__`, in the order the constructor assigns them. -/
structure Env where
  signal : List ℚ
  ema_alpha : List ℚ
  p : ℚ
  fee : ℚ
  v_fee_const : ℚ
  v_fee_rel : ℚ
  t : ℕ
  ema : List ℚ
  last_position_price : ℚ
  actual_position : ℕ
  actual_position_time : ℚ
  gain : ℚ
  sell_price : ℚ
  buy_price : ℚ
  partial_gain : ℚ
  reward : ℚ
  open_sell : Bool
  open_buy : Bool
  deriving DecidableEq

/-- `ema_update`: `self.ema = (1 - alpha) * self.ema + alpha * (signal[t] - signal[t-1])`,
elementwise over the decay rates. -/
def ema_update (e : Env) : Option Env :=
  (e.signal.get? e.t).bind fun cur =>
  (e.signal.get? (e.t - 1)).map fun prev =>
    { e with ema := List.zipWith (fun a m => (1 - a) * m + a * (cur - prev)) e.ema_alpha e.ema }

/-- `place_buy`: set `open_buy` and remember the limit price. -/
def place_buy (price : ℚ) (e : Env) : Env :=
  { e with open_buy := true, buy_price := price }

/-- `place_sell`: set `open_sell` and remember the limit price. -/
def place_sell (price : ℚ) (e : Env) : Env :=
  { e with open_sell := true, sell_price := price }

/-- `cancel_sell`: reset the position to 0 and clear the sell order. -/
def cancel_sell (e : Env) : Env :=
  { e with actual_position := 0, open_sell := false, sell_price := 0 }

/-- `cancel_buy`: reset the position to 0 and clear the buy order. -/
def cancel_buy (e : Env) : Env :=
  { e with actual_position := 0, open_buy := false, buy_price := 0 }

/-- `close_position`: zero the duration and opening price, move the partial
gain into the reward, and return to the neutral position.  The virtual fees
`v_fee_const` and `v_fee_rel` are not consulted. -/
def close_position (e : Env) : Env :=
  { e with actual_position_time := 0, last_position_price := 0,
           reward := e.partial_gain, partial_gain := 0, actual_position := 0 }

/-- `buy`: clear the buy order and pay the current price. -/
def buy (e : Env) : Option Env :=
  (e.signal.get? e.t).map fun cur =>
    { e with open_buy := false, buy_price := 0,
             gain := e.gain - cur, partial_gain := e.partial_gain - cur }

/-- `sell`: clear the sell order and collect the current price. -/
def sell (e : Env) : Option Env :=
  (e.signal.get? e.t).map fun cur =>
    { e with open_sell := false, sell_price := 0,
             gain := e.gain + cur, partial_gain := e.partial_gain + cur }

/-- `try_to_buy`, with the random draw `r` explicit: when the current price
is at or under the limit and `r <= p`, execute `buy`, and close the position
when short.  No caller in the source ever invokes this. -/
def try_to_buy (r : ℚ) (e : Env) : Option Env :=
  (e.signal.get? e.t).bind fun cur =>
    if cur ≤ e.buy_price then
      if r ≤ e.p then
        (buy e).map fun e1 =>
          if e1.actual_position = 2 then close_position e1 else e1
      else some e
    else some e

/-- `try_to_sell`, mirror image of `try_to_buy`.  No caller in the source
ever invokes this. -/
def try_to_sell (r : ℚ) (e : Env) : Option Env :=
  (e.signal.get? e.t).bind fun cur =>
    if e.sell_price ≤ cur then
      if r ≤ e.p then
        (sell e).map fun e1 =>
          if e1.actual_position = 1 then close_position e1 else e1
      else some e
    else some e

/-- The warm-up loop of `__init__`: `for _ in xrange(0,100): ema_update(); t += 1`,
for a general iteration count. -/
def warmup : ℕ → Env → Option Env
  | 0, e => some e
  | n + 1, e => (ema_update e).bind fun e1 => warmup n { e1 with t := e1.t + 1 }

/-- `SimpleTrading.__init__`: build the initial attribute record (reading
`signal[1]` and `signal[0]` for the seed delta) and run the 100 warm-up
EMA updates.  No argument is validated. -/
def SimpleTrading.init (signal ema_alpha : List ℚ) (p fee v_fee_const v_fee_rel : ℚ) :
    Option Env :=
  (signal.get? 1).bind fun s1 =>
  (signal.get? 0).bind fun s0 =>
  warmup 100
    { signal := signal, ema_alpha := ema_alpha, p := p, fee := fee,
      v_fee_const := v_fee_const, v_fee_rel := v_fee_rel, t := 1,
      ema := List.replicate ema_alpha.length (s1 - s0),
      last_position_price := 0, actual_position := 0, actual_position_time := 0,
      gain := 0, sell_price := 0, buy_price := 0, partial_gain := 0, reward := 0,
      open_sell := false, open_buy := false }

/-- The action-reconciliation block of `step`: the three-way branch on the
current position.  A long position with the requested action not long either
places a closing sell at the current price (no opening buy pending) or calls
`cancel_sell`; symmetrically for short. -/
def reconcile (e : Env) (action : ℕ) : Option Env :=
  if e.actual_position = 1 then
    if action = 1 then some e
    else if e.open_buy then some (cancel_sell e)
    else (e.signal.get? e.t).map fun cur => place_sell cur e
  else if e.actual_position = 2 then
    if action = 2 then some e
    else if e.open_sell then some (cancel_buy e)
    else (e.signal.get? e.t).map fun cur => place_buy cur e
  else some e

/-- The opening/accrual block of `step`: from neutral, an action of 1 or 2
places the opening order at the current price, sets the position and records
the opening price; otherwise (position already open after reconciliation)
the open-position duration accrues by 0.01. -/
def openPhase (e : Env) (action : ℕ) : Option Env :=
  if e.actual_position = 0 then
    if action = 1 then
      (e.signal.get? e.t).map fun cur =>
        { place_buy cur e with actual_position := 1, last_position_price := cur }
    else if action = 2 then
      (e.signal.get? e.t).map fun cur =>
        { place_sell cur e with actual_position := 2, last_position_price := cur }
    else some e
  else some { e with actual_position_time := e.actual_position_time + 1/100 }

/-- `step`: advance `t`, update the features, reconcile the action, run the
open/accrual block, then emit `(state, reward)` with the reward attribute
reset to 0.  `state = [signal[t]] ++ ema ++ [time, time, position - 1]`.
Neither `try_to_buy` nor `try_to_sell` is invoked anywhere in it. -/
def step (e : Env) (action : ℕ) : Option (List ℚ × ℚ × Env) :=
  (ema_update { e with t := e.t + 1 }).bind fun e1 =>
  (reconcile e1 action).bind fun e2 =>
  (openPhase e2 action).bind fun e3 =>
  (e3.signal.get? e3.t).map fun cur =>
    (cur :: (e3.ema ++ [e3.actual_position_time, e3.actual_position_time,
        (e3.actual_position : ℚ) - 1]),
     e3.reward, { e3 with reward := 0 })

/-- Run a sequence of agent actions from a state, keeping the final state. -/
def runSteps (e : Env) : List ℕ → Option Env
  | [] => some e
  | a :: as => (step e a).bind fun x => runSteps x.2.2 as

/-- The condition under which the reconciliation block of `step` cancels:
an open intent whose matching opening-order flag is still set while the
agent requests something else. -/
abbrev cancels (e : Env) (a : ℕ) : Prop :=
  (e.actual_position = 1 ∧ a ≠ 1 ∧ e.open_buy = true) ∨
  (e.actual_position = 2 ∧ a ≠ 2 ∧ e.open_sell = true)

/-- A position survives a step when it was open at the step's start and the
reconciliation block does not cancel it. -/
abbrev survives (e : Env) (a : ℕ) : Prop :=
  e.actual_position ≠ 0 ∧ ¬ cancels e a

/-- The data `step` consults for the feature pipeline: price series, decay
rates, time index and EMA vector. -/
def emaState (e : Env) : List ℚ × List ℚ × ℕ × List ℚ :=
  (e.signal, e.ema_alpha, e.t, e.ema)

/-- A constant price series, long enough for construction and a few steps. -/
def sigW : List ℚ := List.replicate 110 0

/-- The state `SimpleTrading.init sigW [1] 1 0 0 0` constructs. -/
def e0W : Env :=
  { signal := sigW, ema_alpha := [1], p := 1, fee := 0, v_fee_const := 0,
    v_fee_rel := 0, t := 101, ema := [0], last_position_price := 0,
    actual_position := 0, actual_position_time := 0, gain := 0, sell_price := 0,
    buy_price := 0, partial_gain := 0, reward := 0, open_sell := false,
    open_buy := false }

/-- `e0W` after action 1: a long intent with its opening buy order pending. -/
def e1W : Env := { e0W with t := 102, actual_position := 1, open_buy := true }

/-- `e1W` after action 1 again: the duration has accrued once. -/
def e2W : Env := { e1W with t := 103, actual_position_time := 1/100 }

/-- `e2W` after action 0: `cancel_sell` ran, the duration was not reset. -/
def e3W : Env := { e2W with t := 104, actual_position := 0 }

/-- `e1W` after action 0: `cancel_sell` reset the position but left the
opening buy order active. -/
def e4W : Env := { e0W with t := 103, open_buy := true }

/-- `e4W` after action 2: a sell order is placed while the stale buy order
is still active, so both order flags are set. -/
def e5W : Env :=
  { e0W with t := 104, open_buy := true, open_sell := true, actual_position := 2 }

/-- The state `SimpleTrading.init sigW [1] 0 0 0 0` constructs (fill
probability 0, otherwise as `e0W`). -/
def e0Z : Env := { e0W with p := 0 }

/-- `e0Z` after action 0: only the clock and features moved. -/
def e1Z : Env := { e0Z with t := 102 }

/-- A state holding an open long position with accumulated partial gain 5
and a nonzero constant virtual fee, fed to `close_position`. -/
def envC2 : Env :=
  { signal := [], ema_alpha := [], p := 1, fee := 1/500, v_fee_const := 1/100,
    v_fee_rel := 1/1000, t := 0, ema := [], last_position_price := 3,
    actual_position := 1, actual_position_time := 1/20, gain := 2,
    sell_price := 0, buy_price := 0, partial_gain := 5, reward := 0,
    open_sell := false, open_buy := false }

/-- `envC2` with both virtual fees set to 0. -/
def envC2zero : Env := { envC2 with v_fee_const := 0, v_fee_rel := 0 }

/-- Unfolding a successful `ema_update`: both price accesses succeeded and
only the `ema` field changed, by the elementwise smoothing formula. -/
theorem ema_update_eq_some {e e' : Env} (h : ema_update e = some e') :
    ∃ cur prev, e.signal.get? e.t = some cur ∧ e.signal.get? (e.t - 1) = some prev ∧
      e' = { e with
        ema := List.zipWith (fun a m => (1 - a) * m + a * (cur - prev)) e.ema_alpha e.ema } := by
  unfold ema_update at h
  rw [Option.bind_eq_some] at h
  obtain ⟨cur, hc, h⟩ := h
  rw [Option.map_eq_some'] at h
  obtain ⟨prev, hp, h⟩ := h
  exact ⟨cur, prev, hc, hp, h.symm⟩

/-- `ema_update` succeeds exactly when the current time index is inside the
price series. -/
theorem ema_update_isSome {e : Env} :
    (ema_update e).isSome = true ↔ e.t < e.signal.length := by
  constructor
  · intro h
    obtain ⟨e', he⟩ := Option.isSome_iff_exists.mp h
    obtain ⟨cur, prev, hc, hp, _⟩ := ema_update_eq_some he
    obtain ⟨hlt, _⟩ := List.get?_eq_some.mp hc
    exact hlt
  · intro h
    have h1 : e.t - 1 < e.signal.length := lt_of_le_of_lt (Nat.sub_le _ _) h
    unfold ema_update
    rw [List.get?_eq_get h, List.get?_eq_get h1]
    rfl

/-- A successful warm-up only advances the clock by the iteration count and
rewrites the EMA vector; the vector keeps its length when it matched the
decay-rate count. -/
theorem warmup_eq_some : ∀ (n : ℕ) (e e' : Env), warmup n e = some e' →
    ∃ m : List ℚ, e' = { e with t := e.t + n, ema := m } ∧
      (e.ema.length = e.ema_alpha.length → m.length = e.ema_alpha.length) := by
  intro n
  induction n with
  | zero =>
    intro e e' h
    rw [warmup] at h
    have he : e = e' := Option.some.inj h
    subst he
    exact ⟨e.ema, rfl, fun hh => hh⟩
  | succ n ih =>
    intro e e' h
    rw [warmup, Option.bind_eq_some] at h
    obtain ⟨e1, h1, h2⟩ := h
    obtain ⟨cur, prev, hc, hp, he1⟩ := ema_update_eq_some h1
    subst he1
    obtain ⟨m, hm, hlen⟩ := ih _ _ h2
    have ht : e.t + 1 + n = e.t + (n + 1) := by omega
    rw [ht] at hm
    refine ⟨m, hm, fun hl => ?_⟩
    apply hlen
    simp [List.length_zipWith, hl]

/-- Warm-up succeeds exactly when all its price accesses are in range. -/
theorem warmup_isSome : ∀ (n : ℕ) (e : Env),
    (warmup n e).isSome = true ↔ (n = 0 ∨ e.t + n ≤ e.signal.length) := by
  intro n
  induction n with
  | zero => intro e; simp [warmup]
  | succ n ih =>
    intro e
    rw [warmup]
    cases hu : ema_update e with
    | none =>
      have hlen : ¬ e.t < e.signal.length := by
        intro hlt
        have hs := ema_update_isSome.mpr hlt
        rw [hu] at hs
        simp at hs
      simp only [Option.none_bind]
      constructor
      · intro hh; simp at hh
      · rintro (h | h)
        · exact absurd h (Nat.succ_ne_zero n)
        · exact absurd (by omega : e.t < e.signal.length) hlen
    | some e1 =>
      obtain ⟨cur, prev, hc, hp, he1⟩ := ema_update_eq_some hu
      obtain ⟨hlt, -⟩ := List.get?_eq_some.mp hc
      subst he1
      simp only [Option.some_bind]
      rw [ih]
      show (n = 0 ∨ e.t + 1 + n ≤ e.signal.length) ↔ (n + 1 = 0 ∨ e.t + (n + 1) ≤ e.signal.length)
      constructor
      · rintro (rfl | h)
        · right; omega
        · right; omega
      · rintro (h | h)
        · exact absurd h (Nat.succ_ne_zero n)
        · right; omega

/-- A successful construction: the two seed reads succeeded, and the state is
the constructor's record with the clock at 101 and some EMA vector whose
length is the decay-rate count. -/
theorem init_eq_some {sig α : List ℚ} {p f c r : ℚ} {e0 : Env}
    (h : SimpleTrading.init sig α p f c r = some e0) :
    ∃ (s1 s0 : ℚ) (m : List ℚ), sig.get? 1 = some s1 ∧ sig.get? 0 = some s0 ∧
      e0 = { signal := sig, ema_alpha := α, p := p, fee := f, v_fee_const := c,
             v_fee_rel := r, t := 101, ema := m, last_position_price := 0,
             actual_position := 0, actual_position_time := 0, gain := 0,
             sell_price := 0, buy_price := 0, partial_gain := 0, reward := 0,
             open_sell := false, open_buy := false } ∧
      m.length = α.length := by
  unfold SimpleTrading.init at h
  rw [Option.bind_eq_some] at h
  obtain ⟨s1, h1, h⟩ := h
  rw [Option.bind_eq_some] at h
  obtain ⟨s0, h0, h⟩ := h
  obtain ⟨m, hm, hlen⟩ := warmup_eq_some _ _ _ h
  exact ⟨s1, s0, m, h1, h0, hm, hlen (by simp)⟩

/-- Construction succeeds exactly for a price series of at least 101
elements; no other argument affects success. -/
theorem init_isSome_iff (sig α : List ℚ) (p f c r : ℚ) :
    (SimpleTrading.init sig α p f c r).isSome = true ↔ 101 ≤ sig.length := by
  constructor
  · intro h
    obtain ⟨e0, he⟩ := Option.isSome_iff_exists.mp h
    unfold SimpleTrading.init at he
    rw [Option.bind_eq_some] at he
    obtain ⟨s1, h1, he⟩ := he
    rw [Option.bind_eq_some] at he
    obtain ⟨s0, h0, he⟩ := he
    have hs := (warmup_isSome 100 _).mp (by rw [he]; rfl)
    rcases hs with h' | h'
    · exact absurd h' (by norm_num)
    · exact h'
  · intro h
    unfold SimpleTrading.init
    have h1 : (1:ℕ) < sig.length := by omega
    have h0 : (0:ℕ) < sig.length := by omega
    rw [List.get?_eq_get h1, List.get?_eq_get h0]
    simp only [Option.some_bind]
    exact (warmup_isSome 100 _).mpr (Or.inr (by simpa using h))

/-- A successful reconciliation leaves the feature pipeline, bookkeeping and
duration untouched; the position is zeroed exactly under `cancels`. -/
theorem reconcile_eq_some {e : Env} {a : ℕ} {e' : Env} (h : reconcile e a = some e') :
    e'.signal = e.signal ∧ e'.ema_alpha = e.ema_alpha ∧ e'.t = e.t ∧ e'.ema = e.ema ∧
    e'.p = e.p ∧ e'.reward = e.reward ∧ e'.gain = e.gain ∧
    e'.partial_gain = e.partial_gain ∧
    e'.actual_position_time = e.actual_position_time ∧
    e'.last_position_price = e.last_position_price ∧
    e'.actual_position = (if cancels e a then 0 else e.actual_position) := by
  unfold reconcile at h
  by_cases hp1 : e.actual_position = 1
  · rw [if_pos hp1] at h
    by_cases ha : a = 1
    · rw [if_pos ha] at h
      have he : e = e' := Option.some.inj h
      subst he
      refine ⟨rfl, rfl, rfl, rfl, rfl, rfl, rfl, rfl, rfl, rfl, ?_⟩
      rw [if_neg]
      rintro (⟨-, hne, -⟩ | ⟨hp2, -, -⟩)
      · exact hne ha
      · rw [hp1] at hp2; exact absurd hp2 (by norm_num)
    · rw [if_neg ha] at h
      by_cases hb : e.open_buy = true
      · rw [if_pos hb] at h
        have he : cancel_sell e = e' := Option.some.inj h
        subst he
        refine ⟨rfl, rfl, rfl, rfl, rfl, rfl, rfl, rfl, rfl, rfl, ?_⟩
        rw [if_pos (Or.inl ⟨hp1, ha, hb⟩)]
        rfl
      · rw [if_neg hb] at h
        rw [Option.map_eq_some'] at h
        obtain ⟨cur, hc, he⟩ := h
        subst he
        refine ⟨rfl, rfl, rfl, rfl, rfl, rfl, rfl, rfl, rfl, rfl, ?_⟩
        rw [if_neg]
        · rfl
        · rintro (⟨-, -, hob⟩ | ⟨hp2, -, -⟩)
          · exact hb hob
          · rw [hp1] at hp2; exact absurd hp2 (by norm_num)
  · rw [if_neg hp1] at h
    by_cases hp2 : e.actual_position = 2
    · rw [if_pos hp2] at h
      by_cases ha : a = 2
      · rw [if_pos ha] at h
        have he : e = e' := Option.some.inj h
        subst he
        refine ⟨rfl, rfl, rfl, rfl, rfl, rfl, rfl, rfl, rfl, rfl, ?_⟩
        rw [if_neg]
        rintro (⟨hp1', -, -⟩ | ⟨-, hne, -⟩)
        · exact hp1 hp1'
        · exact hne ha
      · rw [if_neg ha] at h
        by_cases hb : e.open_sell = true
        · rw [if_pos hb] at h
          have he : cancel_buy e = e' := Option.some.inj h
          subst he
          refine ⟨rfl, rfl, rfl, rfl, rfl, rfl, rfl, rfl, rfl, rfl, ?_⟩
          rw [if_pos (Or.inr ⟨hp2, ha, hb⟩)]
          rfl
        · rw [if_neg hb] at h
          rw [Option.map_eq_some'] at h
          obtain ⟨cur, hc, he⟩ := h
          subst he
          refine ⟨rfl, rfl, rfl, rfl, rfl, rfl, rfl, rfl, rfl, rfl, ?_⟩
          rw [if_neg]
          · rfl
          · rintro (⟨hp1', -, -⟩ | ⟨-, -, hob⟩)
            · exact hp1 hp1'
            · exact hb hob
    · rw [if_neg hp2] at h
      have he : e = e' := Option.some.inj h
      subst he
      refine ⟨rfl, rfl, rfl, rfl, rfl, rfl, rfl, rfl, rfl, rfl, ?_⟩
      rw [if_neg]
      rintro (⟨hp1', -, -⟩ | ⟨hp2', -, -⟩)
      · exact hp1 hp1'
      · exact hp2 hp2'

/-- A successful open/accrual block leaves the feature pipeline and
bookkeeping untouched; from neutral it can only open positions 1 or 2 with
the duration unchanged, and from an open position it only accrues 0.01. -/
theorem openPhase_eq_some {e : Env} {a : ℕ} {e' : Env} (h : openPhase e a = some e') :
    e'.signal = e.signal ∧ e'.ema_alpha = e.ema_alpha ∧ e'.t = e.t ∧ e'.ema = e.ema ∧
    e'.p = e.p ∧ e'.reward = e.reward ∧ e'.gain = e.gain ∧
    e'.partial_gain = e.partial_gain ∧
    (e.actual_position = 0 →
      e'.actual_position_time = e.actual_position_time ∧
      (e'.actual_position = 0 ∨ e'.actual_position = 1 ∨ e'.actual_position = 2)) ∧
    (e.actual_position ≠ 0 →
      e'.actual_position = e.actual_position ∧
      e'.actual_position_time = e.actual_position_time + 1/100) := by
  unfold openPhase at h
  by_cases hp : e.actual_position = 0
  · rw [if_pos hp] at h
    by_cases h1 : a = 1
    · rw [if_pos h1] at h
      rw [Option.map_eq_some'] at h
      obtain ⟨cur, hc, he⟩ := h
      subst he
      exact ⟨rfl, rfl, rfl, rfl, rfl, rfl, rfl, rfl,
        fun _ => ⟨rfl, Or.inr (Or.inl rfl)⟩, fun hne => absurd hp hne⟩
    · rw [if_neg h1] at h
      by_cases h2 : a = 2
      · rw [if_pos h2] at h
        rw [Option.map_eq_some'] at h
        obtain ⟨cur, hc, he⟩ := h
        subst he
        exact ⟨rfl, rfl, rfl, rfl, rfl, rfl, rfl, rfl,
          fun _ => ⟨rfl, Or.inr (Or.inr rfl)⟩, fun hne => absurd hp hne⟩
      · rw [if_neg h2] at h
        have he : e = e' := Option.some.inj h
        subst he
        exact ⟨rfl, rfl, rfl, rfl, rfl, rfl, rfl, rfl,
          fun _ => ⟨rfl, Or.inl hp⟩, fun hne => absurd hp hne⟩
  · rw [if_neg hp] at h
    have he : ({ e with actual_position_time := e.actual_position_time + 1/100 } : Env) = e' :=
      Option.some.inj h
    subst he
    exact ⟨rfl, rfl, rfl, rfl, rfl, rfl, rfl, rfl,
      fun hz => absurd hz hp, fun _ => ⟨rfl, rfl⟩⟩

/-- Unfolding a successful `step` into its four phases. -/
theorem step_eq_some {e : Env} {a : ℕ} {o : List ℚ} {rew : ℚ} {e' : Env}
    (h : step e a = some (o, rew, e')) :
    ∃ (e1 e2 e3 : Env) (cur : ℚ),
      ema_update { e with t := e.t + 1 } = some e1 ∧
      reconcile e1 a = some e2 ∧
      openPhase e2 a = some e3 ∧
      e3.signal.get? e3.t = some cur ∧
      o = cur :: (e3.ema ++ [e3.actual_position_time, e3.actual_position_time,
        (e3.actual_position : ℚ) - 1]) ∧
      rew = e3.reward ∧ e' = { e3 with reward := 0 } := by
  unfold step at h
  rw [Option.bind_eq_some] at h
  obtain ⟨e1, h1, h⟩ := h
  rw [Option.bind_eq_some] at h
  obtain ⟨e2, h2, h⟩ := h
  rw [Option.bind_eq_some] at h
  obtain ⟨e3, h3, h⟩ := h
  rw [Option.map_eq_some'] at h
  obtain ⟨cur, hc, h⟩ := h
  obtain ⟨ho, hre⟩ := Prod.mk.injEq .. ▸ h
  obtain ⟨hr, he⟩ := Prod.mk.injEq .. ▸ hre
  exact ⟨e1, e2, e3, cur, h1, h2, h3, hc, ho.symm, hr.symm, he.symm⟩

/-- The basic frame of one `step`: the series and decay rates are untouched,
the clock advances by one, the returned reward is the stored reward
attribute and the stored reward attribute is reset to 0; the EMA length and
the position range are preserved. -/
theorem step_frame {e : Env} {a : ℕ} {o : List ℚ} {rew : ℚ} {e' : Env}
    (h : step e a = some (o, rew, e')) :
    e'.signal = e.signal ∧ e'.ema_alpha = e.ema_alpha ∧ e'.t = e.t + 1 ∧
    rew = e.reward ∧ e'.reward = 0 ∧
    (e.ema.length = e.ema_alpha.length → e'.ema.length = e'.ema_alpha.length) ∧
    ((e.actual_position = 0 ∨ e.actual_position = 1 ∨ e.actual_position = 2) →
      (e'.actual_position = 0 ∨ e'.actual_position = 1 ∨ e'.actual_position = 2)) := by
  obtain ⟨e1, e2, e3, cur, h1, h2, h3, hc, ho, hr, he⟩ := step_eq_some h
  obtain ⟨cur1, prev1, hc1, hp1, he1⟩ := ema_update_eq_some h1
  obtain ⟨r2sig, r2al, r2t, r2ema, r2p, r2rew, r2gain, r2pg, r2time, r2last, r2pos⟩ :=
    reconcile_eq_some h2
  obtain ⟨o3sig, o3al, o3t, o3ema, o3p, o3rew, o3gain, o3pg, o3zero, o3nonzero⟩ :=
    openPhase_eq_some h3
  subst he1
  subst he
  refine ⟨?_, ?_, ?_, ?_, rfl, ?_, ?_⟩
  · rw [o3sig, r2sig]
  · rw [o3al, r2al]
  · rw [o3t, r2t]
  · rw [hr, o3rew, r2rew]
  · intro hl
    rw [o3ema, r2ema, o3al, r2al]
    simp [List.length_zipWith, hl]
  · intro hpos
    have h2pos : e2.actual_position = 0 ∨ e2.actual_position = 1 ∨ e2.actual_position = 2 := by
      rw [r2pos]
      split
      · exact Or.inl rfl
      · exact hpos
    by_cases hz : e2.actual_position = 0
    · exact (o3zero hz).2
    · rw [(o3nonzero hz).1]
      exact h2pos

/-- One `step` updates the EMA vector by exactly one elementwise smoothing
pass against the new price delta. -/
theorem step_ema {e : Env} {a : ℕ} {o : List ℚ} {rew : ℚ} {e' : Env}
    (h : step e a = some (o, rew, e')) :
    ∃ cur prev, e.signal.get? (e.t + 1) = some cur ∧ e.signal.get? e.t = some prev ∧
      e'.ema = List.zipWith (fun ai m => (1 - ai) * m + ai * (cur - prev))
        e.ema_alpha e.ema := by
  obtain ⟨e1, e2, e3, cur0, h1, h2, h3, hc, ho, hr, he⟩ := step_eq_some h
  obtain ⟨cur, prev, hc1, hp1, he1⟩ := ema_update_eq_some h1
  obtain ⟨r2sig, r2al, r2t, r2ema, -⟩ := reconcile_eq_some h2
  obtain ⟨o3sig, o3al, o3t, o3ema, -⟩ := openPhase_eq_some h3
  subst he1
  subst he
  refine ⟨cur, prev, hc1, ?_, ?_⟩
  · have : e.t + 1 - 1 = e.t := by omega
    rw [this] at hp1
    exact hp1
  · show e3.ema = _
    rw [o3ema, r2ema]

/-- The frame of a whole run: series, rates, clock arithmetic, the reward
reset discipline, and preservation of the EMA length and position range. -/
theorem runSteps_frame : ∀ (as : List ℕ) (e e' : Env), runSteps e as = some e' →
    e'.signal = e.signal ∧ e'.ema_alpha = e.ema_alpha ∧ e'.t = e.t + as.length ∧
    (e'.reward = 0 ∨ e'.reward = e.reward) ∧
    (e.ema.length = e.ema_alpha.length → e'.ema.length = e'.ema_alpha.length) ∧
    ((e.actual_position = 0 ∨ e.actual_position = 1 ∨ e.actual_position = 2) →
      (e'.actual_position = 0 ∨ e'.actual_position = 1 ∨ e'.actual_position = 2)) := by
  intro as
  induction as with
  | nil =>
    intro e e' h
    rw [runSteps] at h
    have he : e = e' := Option.some.inj h
    subst he
    exact ⟨rfl, rfl, by simp, Or.inr rfl, fun hh => hh, fun hh => hh⟩
  | cons a as ih =>
    intro e e' h
    rw [runSteps, Option.bind_eq_some] at h
    obtain ⟨x, hx, hrest⟩ := h
    obtain ⟨o, rew, emid⟩ := x
    obtain ⟨s1, s2, s3, s4, s5, s6, s7⟩ := step_frame hx
    obtain ⟨r1, r2, r3, r4, r5, r6⟩ := ih emid e' hrest
    refine ⟨r1.trans s1, r2.trans s2, ?_, ?_, ?_, ?_⟩
    · rw [r3, s3]; simp; omega
    · rcases r4 with h0 | h0
      · exact Or.inl h0
      · exact Or.inl (h0.trans s5)
    · intro hl
      exact r5 (s6 hl)
    · intro hpos
      exact r6 (s7 hpos)

/-- Equal `emaState`s decompose into the four component equalities. -/
theorem emaState_fields {e g : Env} (h : emaState e = emaState g) :
    e.signal = g.signal ∧ e.ema_alpha = g.ema_alpha ∧ e.t = g.t ∧ e.ema = g.ema := by
  unfold emaState at h
  simp only [Prod.mk.injEq] at h
  exact ⟨h.1, h.2.1, h.2.2.1, h.2.2.2⟩

/-- Rebuild an `emaState` equality from its component equalities. -/
theorem emaState_of_fields {e g : Env} (h1 : e.signal = g.signal)
    (h2 : e.ema_alpha = g.ema_alpha) (h3 : e.t = g.t) (h4 : e.ema = g.ema) :
    emaState e = emaState g := by
  unfold emaState
  rw [h1, h2, h3, h4]

/-- `ema_update` respects `emaState`: on states with the same feature data it
produces the same feature data. -/
theorem ema_update_congr {e g e1 g1 : Env} (hs : emaState e = emaState g)
    (he : ema_update e = some e1) (hg : ema_update g = some g1) :
    emaState e1 = emaState g1 := by
  obtain ⟨h1, h2, h3, h4⟩ := emaState_fields hs
  obtain ⟨cur, prev, hc, hp, hee⟩ := ema_update_eq_some he
  obtain ⟨cur', prev', hc', hp', hgg⟩ := ema_update_eq_some hg
  rw [h1, h3] at hc hp
  rw [hc'] at hc
  rw [hp'] at hp
  obtain rfl : cur' = cur := Option.some.inj hc
  obtain rfl : prev' = prev := Option.some.inj hp
  subst hee
  subst hgg
  exact emaState_of_fields h1 h2 h3 (by rw [h2, h4])

/-- The warm-up loop respects `emaState`. -/
theorem warmup_congr : ∀ (n : ℕ) (e g e' g' : Env), emaState e = emaState g →
    warmup n e = some e' → warmup n g = some g' → emaState e' = emaState g' := by
  intro n
  induction n with
  | zero =>
    intro e g e' g' hs he hg
    rw [warmup] at he hg
    have h1 : e = e' := Option.some.inj he
    have h2 : g = g' := Option.some.inj hg
    subst h1; subst h2
    exact hs
  | succ n ih =>
    intro e g e' g' hs he hg
    rw [warmup, Option.bind_eq_some] at he hg
    obtain ⟨e1, he1, he2⟩ := he
    obtain ⟨g1, hg1, hg2⟩ := hg
    have hs1 := ema_update_congr hs he1 hg1
    obtain ⟨f1, f2, f3, f4⟩ := emaState_fields hs1
    refine ih _ _ _ _ ?_ he2 hg2
    exact emaState_of_fields f1 f2 (by show e1.t + 1 = g1.t + 1; rw [f3]) f4

/-- Construction respects `emaState`: two constructions over the same series
and decay rates (whatever the probability and fee arguments) produce the same
feature data. -/
theorem init_congr {sig α : List ℚ} {p1 f1 c1 r1 p2 f2 c2 r2 : ℚ} {e0 g0 : Env}
    (h1 : SimpleTrading.init sig α p1 f1 c1 r1 = some e0)
    (h2 : SimpleTrading.init sig α p2 f2 c2 r2 = some g0) :
    emaState e0 = emaState g0 := by
  unfold SimpleTrading.init at h1 h2
  rw [Option.bind_eq_some] at h1 h2
  obtain ⟨s1, hs1, h1⟩ := h1
  obtain ⟨s1', hs1', h2⟩ := h2
  rw [Option.bind_eq_some] at h1 h2
  obtain ⟨s0, hs0, h1⟩ := h1
  obtain ⟨s0', hs0', h2⟩ := h2
  rw [hs1'] at hs1
  rw [hs0'] at hs0
  obtain rfl : s1' = s1 := Option.some.inj hs1
  obtain rfl : s0' = s0 := Option.some.inj hs0
  refine warmup_congr 100 _ _ _ _ ?_ h1 h2
  exact emaState_of_fields rfl rfl rfl rfl

/-- `step` respects `emaState`, whatever the two actions are: the feature
pipeline never reads the action, the position or the randomness. -/
theorem step_congr {e g : Env} {a b : ℕ} {o1 o2 : List ℚ} {r1 r2 : ℚ} {e' g' : Env}
    (hs : emaState e = emaState g)
    (h1 : step e a = some (o1, r1, e')) (h2 : step g b = some (o2, r2, g')) :
    emaState e' = emaState g' := by
  obtain ⟨f1, f2, f3, f4⟩ := emaState_fields hs
  obtain ⟨e1, e2, e3, cur, he1, he2, he3, -, -, -, hee⟩ := step_eq_some h1
  obtain ⟨g1, g2, g3, cur', hg1, hg2, hg3, -, -, -, hgg⟩ := step_eq_some h2
  have hs1 : emaState e1 = emaState g1 := by
    refine ema_update_congr ?_ he1 hg1
    exact emaState_of_fields f1 f2 (by show e.t + 1 = g.t + 1; rw [f3]) f4
  obtain ⟨r2sig, r2al, r2t, r2ema, -⟩ := reconcile_eq_some he2
  obtain ⟨q2sig, q2al, q2t, q2ema, -⟩ := reconcile_eq_some hg2
  obtain ⟨r3sig, r3al, r3t, r3ema, -⟩ := openPhase_eq_some he3
  obtain ⟨q3sig, q3al, q3t, q3ema, -⟩ := openPhase_eq_some hg3
  have hs3 : emaState e3 = emaState g3 := by
    obtain ⟨w1, w2, w3, w4⟩ := emaState_fields hs1
    refine emaState_of_fields ?_ ?_ ?_ ?_
    · rw [r3sig, r2sig, q3sig, q2sig, w1]
    · rw [r3al, r2al, q3al, q2al, w2]
    · rw [r3t, r2t, q3t, q2t, w3]
    · rw [r3ema, r2ema, q3ema, q2ema, w4]
  subst hee
  subst hgg
  obtain ⟨w1, w2, w3, w4⟩ := emaState_fields hs3
  exact emaState_of_fields w1 w2 w3 w4

/-- Whole runs of the same length respect `emaState`, whatever the actions. -/
theorem runSteps_congr : ∀ (as bs : List ℕ), as.length = bs.length →
    ∀ (e g e' g' : Env), emaState e = emaState g →
      runSteps e as = some e' → runSteps g bs = some g' →
      emaState e' = emaState g' := by
  intro as
  induction as with
  | nil =>
    intro bs hlen e g e' g' hs he hg
    cases bs with
    | nil =>
      rw [runSteps] at he hg
      have h1 : e = e' := Option.some.inj he
      have h2 : g = g' := Option.some.inj hg
      subst h1; subst h2
      exact hs
    | cons b bs => simp at hlen
  | cons a as ih =>
    intro bs hlen e g e' g' hs he hg
    cases bs with
    | nil => simp at hlen
    | cons b bs =>
      rw [runSteps, Option.bind_eq_some] at he hg
      obtain ⟨x, hx, he2⟩ := he
      obtain ⟨y, hy, hg2⟩ := hg
      obtain ⟨o1, r1, emid⟩ := x
      obtain ⟨o2, r2, gmid⟩ := y
      exact ih bs (by simpa using hlen) emid gmid e' g'
        (step_congr hs hx hy) he2 hg2

/-- Reconciliation succeeds whenever the current price access does. -/
theorem reconcile_isSome {e : Env} (a : ℕ) {q : ℚ} (h : e.signal.get? e.t = some q) :
    ∃ e2, reconcile e a = some e2 := by
  unfold reconcile
  split_ifs <;> first
    | exact ⟨_, rfl⟩
    | (rw [h]; exact ⟨_, rfl⟩)

/-- The open/accrual block succeeds whenever the current price access does. -/
theorem openPhase_isSome {e : Env} (a : ℕ) {q : ℚ} (h : e.signal.get? e.t = some q) :
    ∃ e3, openPhase e a = some e3 := by
  unfold openPhase
  split_ifs <;> first
    | exact ⟨_, rfl⟩
    | (rw [h]; exact ⟨_, rfl⟩)

/-- `step` succeeds exactly when the advanced time index is inside the price
series, whatever the action and position: every price access of a step uses
the advanced index. -/
theorem step_isSome_iff (e : Env) (a : ℕ) :
    (step e a).isSome = true ↔ e.t + 1 < e.signal.length := by
  constructor
  · intro h
    obtain ⟨x, hx⟩ := Option.isSome_iff_exists.mp h
    obtain ⟨o, rew, e'⟩ := x
    obtain ⟨e1, e2, e3, cur, h1, -⟩ := step_eq_some hx
    have hs := ema_update_isSome.mp (by rw [h1]; rfl)
    exact hs
  · intro h
    have h1s : (ema_update { e with t := e.t + 1 }).isSome = true :=
      ema_update_isSome.mpr h
    obtain ⟨e1, h1⟩ := Option.isSome_iff_exists.mp h1s
    obtain ⟨cur, prev, hc, hp, he1⟩ := ema_update_eq_some h1
    have hc1 : e1.signal.get? e1.t = some cur := by rw [he1]; exact hc
    obtain ⟨e2, h2⟩ := reconcile_isSome a hc1
    obtain ⟨r2sig, r2al, r2t, -⟩ := reconcile_eq_some h2
    have hc2 : e2.signal.get? e2.t = some cur := by rw [r2sig, r2t]; exact hc1
    obtain ⟨e3, h3⟩ := openPhase_isSome a hc2
    obtain ⟨o3sig, o3al, o3t, -⟩ := openPhase_eq_some h3
    have hc3 : e3.signal.get? e3.t = some cur := by rw [o3sig, o3t]; exact hc2
    unfold step
    rw [h1]
    simp only [Option.some_bind]
    rw [h2]
    simp only [Option.some_bind]
    rw [h3]
    simp only [Option.some_bind]
    rw [hc3]
    rfl

/-- C1: refuted on the code — `step` never resolves a pending order. From
construction, action 1 leaves an opening buy pending at limit price 0 with
fill probability 1; on the next tick the price 0 is fill-eligible (0 ≤ 0),
yet after that `step` call the order is still active, no fill was recorded
and the returned and stored rewards are 0. -/
theorem C1_no_fill_within_step :
    SimpleTrading.init sigW [1] 1 0 0 0 = some e0W ∧
    runSteps e0W [1] = some e1W ∧ e1W.open_buy = true ∧ e1W.p = 1 ∧
    e1W.buy_price = 0 ∧
    step e1W 1 = some ([0, 0, 1/100, 1/100, 0], 0, e2W) ∧
    e2W.signal.get? e2W.t = some 0 ∧ e2W.buy_price = 0 ∧
    e2W.open_buy = true ∧ e2W.reward = 0 := by decide

/-- C2: refuted on the code — `close_position` copies the partial gain into
the reward without subtracting either virtual fee, so with nonzero virtual
fees the emitted reward equals (rather than strictly undercuts) the fee-free
reward. -/
theorem C2_fees_not_subtracted :
    (∀ e : Env, (close_position e).reward = e.partial_gain) ∧
    (close_position envC2).reward = (close_position envC2zero).reward ∧
    envC2.v_fee_const = 1/100 ∧ envC2.v_fee_rel = 1/1000 ∧
    envC2zero.v_fee_const = 0 ∧ envC2zero.v_fee_rel = 0 ∧
    (close_position envC2).reward ≠
      envC2.partial_gain - envC2.v_fee_const - envC2.v_fee_rel := by
  refine ⟨fun e => rfl, rfl, rfl, rfl, rfl, rfl, by decide⟩

/-- C3: refuted on the code — from construction, the action sequence
[1, 0, 2] leaves both order flags active at once: the wrong-side
`cancel_sell` left the opening buy pending, and the later short intent
placed a sell order beside it. -/
theorem C3_two_active_orders :
    SimpleTrading.init sigW [1] 1 0 0 0 = some e0W ∧
    runSteps e0W [1, 0, 2] = some e5W ∧
    e5W.open_buy = true ∧ e5W.open_sell = true := by decide

/-- C4: refuted on the code — cancelling a not-yet-filled long intent calls
`cancel_sell`: the position does revert to neutral with reward 0 and the
total gain unchanged, but the pending opening buy order itself stays
active. -/
theorem C4_cancel_leaves_buy_pending :
    SimpleTrading.init sigW [1] 1 0 0 0 = some e0W ∧
    runSteps e0W [1] = some e1W ∧ e1W.actual_position = 1 ∧
    e1W.open_buy = true ∧
    step e1W 0 = some ([0, 0, 0, 0, -1], 0, e4W) ∧
    e4W.actual_position = 0 ∧ e4W.gain = e0W.gain ∧ e4W.reward = 0 ∧
    e4W.open_buy = true := by decide

/-- C5 counterexample: after action 1 the position is long with duration
still 0, and after [1, 1, 0] the position is neutral with duration 0.01 —
the claimed equivalence fails in both directions. -/
theorem C5_duration_iff_fails :
    SimpleTrading.init sigW [1] 1 0 0 0 = some e0W ∧
    runSteps e0W [1] = some e1W ∧ e1W.actual_position = 1 ∧
    e1W.actual_position_time = 0 ∧
    runSteps e0W [1, 1, 0] = some e3W ∧ e3W.actual_position = 0 ∧
    e3W.actual_position_time = 1/100 := by decide

/-- C5 amended: a `step` adds exactly 0.01 to the open-position duration
when the position was open at the step's start and survives its
reconciliation, and leaves the duration unchanged otherwise; in particular
no step resets the duration, it is 0 on the tick a position opens, and it
keeps its value through a cancel. -/
theorem C5_duration_step_rule {e : Env} {a : ℕ} {o : List ℚ} {rew : ℚ} {e' : Env}
    (h : step e a = some (o, rew, e')) :
    (survives e a → e'.actual_position_time = e.actual_position_time + 1/100) ∧
    (¬ survives e a → e'.actual_position_time = e.actual_position_time) := by
  obtain ⟨e1, e2, e3, cur, hu, hrc, hop, hc, ho, hr, he⟩ := step_eq_some h
  obtain ⟨cur1, prev1, hc1, hp1, he1⟩ := ema_update_eq_some hu
  obtain ⟨r2sig, r2al, r2t, r2ema, r2p, r2rew, r2gain, r2pg, r2time, r2last, r2pos⟩ :=
    reconcile_eq_some hrc
  obtain ⟨o3sig, o3al, o3t, o3ema, o3p, o3rew, o3gain, o3pg, o3zero, o3nonzero⟩ :=
    openPhase_eq_some hop
  subst he1
  subst he
  by_cases hcl : cancels e a
  · have h2pos : e2.actual_position = 0 := by rw [r2pos, if_pos hcl]
    refine ⟨fun hs => absurd hcl hs.2, fun _ => ?_⟩
    show e3.actual_position_time = e.actual_position_time
    rw [(o3zero h2pos).1, r2time]
  · by_cases hz : e.actual_position = 0
    · have h2pos : e2.actual_position = 0 := by rw [r2pos, if_neg hcl]; exact hz
      refine ⟨fun hs => absurd hz hs.1, fun _ => ?_⟩
      show e3.actual_position_time = e.actual_position_time
      rw [(o3zero h2pos).1, r2time]
    · have h2pos : e2.actual_position ≠ 0 := by rw [r2pos, if_neg hcl]; exact hz
      refine ⟨fun _ => ?_, fun hns => absurd ⟨hz, hcl⟩ hns⟩
      show e3.actual_position_time = e.actual_position_time + 1/100
      rw [(o3nonzero h2pos).2, r2time]

/-- C5 witness: the amended rule applied to the surviving long intent of the
concrete trace. -/
theorem C5_duration_witness :
    e2W.actual_position_time = e1W.actual_position_time + 1/100 :=
  (C5_duration_step_rule
    (by decide : step e1W 1 = some ([0, 0, 1/100, 1/100, 0], 0, e2W))).1
    (by decide)

/-- C6: confirmed — from any constructed state and along any action
sequence, a `step` call returns reward exactly 0 and leaves the stored
reward attribute 0: `close_position` (the only writer of a nonzero reward)
and the stochastic fill routines are never invoked by `step`, whose
embedding takes no random input at all. -/
theorem C6_step_reward_zero (sig α : List ℚ) (p f c r : ℚ) (as : List ℕ)
    (e0 e : Env) (a : ℕ) (o : List ℚ) (rew : ℚ) (e' : Env)
    (h0 : SimpleTrading.init sig α p f c r = some e0)
    (h1 : runSteps e0 as = some e)
    (h2 : step e a = some (o, rew, e')) :
    rew = 0 ∧ e'.reward = 0 := by
  obtain ⟨s1, s0, m, -, -, he0, -⟩ := init_eq_some h0
  have hrew0 : e0.reward = 0 := by rw [he0]
  obtain ⟨-, -, -, hrw, -, -⟩ := runSteps_frame as e0 e h1
  obtain ⟨-, -, -, hr, hz, -, -⟩ := step_frame h2
  have hre : e.reward = 0 := by
    rcases hrw with h | h
    · exact h
    · rw [h, hrew0]
  exact ⟨by rw [hr, hre], hz⟩

/-- C6 witness: the reward theorem applied to the first step of the
concrete constant-price run. -/
theorem C6_reward_witness :
    (0 : ℚ) = 0 ∧ ({ e0W with t := 102 } : Env).reward = 0 :=
  C6_step_reward_zero sigW [1] 1 0 0 0 [] e0W e0W 0 [0, 0, 0, 0, -1] 0
    { e0W with t := 102 } (by decide) rfl (by decide)

/-- C7 counterexample: construction accepts a fill probability of 2 (outside
[0, 1]) and a negative decay rate without any failure. -/
theorem C7_invalid_config_accepted :
    (SimpleTrading.init sigW [1] 2 0 0 0).isSome = true ∧ ¬ ((2:ℚ) ≤ 1) ∧
    (SimpleTrading.init sigW [-1] 1 0 0 0).isSome = true ∧ ¬ ((0:ℚ) < -1) := by
  decide

/-- C7 amended: construction performs no validation of the fill probability
or decay rates; it fails exactly when the price series is shorter than 101
elements (the seed delta plus 100 warm-up reads), which covers the empty
series. -/
theorem C7_construction_no_validation (sig α : List ℚ) (p f c r : ℚ) :
    (SimpleTrading.init sig α p f c r).isSome = true ↔ 101 ≤ sig.length :=
  init_isSome_iff sig α p f c r

/-- C8: confirmed — a successful `step` from any constructed state returns
the observation `[current price] ++ features ++ [duration, duration,
position − 1]` of fixed length 4 plus the decay-rate count, with the
position code in {0, 1, 2} (so the last entry is in {−1, 0, 1}), and
returns reward 0 (no position ever closes). -/
theorem C8_observation_shape (sig α : List ℚ) (p f c r : ℚ) (as : List ℕ)
    (e0 e : Env) (a : ℕ) (o : List ℚ) (rew : ℚ) (e' : Env)
    (h0 : SimpleTrading.init sig α p f c r = some e0)
    (h1 : runSteps e0 as = some e)
    (h2 : step e a = some (o, rew, e')) :
    (∃ cur : ℚ, e'.signal.get? e'.t = some cur ∧
      o = cur :: (e'.ema ++ [e'.actual_position_time, e'.actual_position_time,
        (e'.actual_position : ℚ) - 1])) ∧
    o.length = α.length + 4 ∧
    (e'.actual_position = 0 ∨ e'.actual_position = 1 ∨ e'.actual_position = 2) ∧
    ((e'.actual_position : ℚ) - 1 = -1 ∨ (e'.actual_position : ℚ) - 1 = 0 ∨
      (e'.actual_position : ℚ) - 1 = 1) ∧
    rew = 0 := by
  obtain ⟨e1, e2, e3, cur, hu, hrc, hop, hc, ho, hr, he⟩ := step_eq_some h2
  obtain ⟨s1, s0, m, -, -, he0, hml⟩ := init_eq_some h0
  obtain ⟨rs1, rs2, rs3, rs4, rs5, rs6⟩ := runSteps_frame as e0 e h1
  obtain ⟨ss1, ss2, ss3, ss4, ss5, ss6, ss7⟩ := step_frame h2
  have hfe : e'.ema = e3.ema := by rw [he]
  have hft : e'.actual_position_time = e3.actual_position_time := by rw [he]
  have hfp : e'.actual_position = e3.actual_position := by rw [he]
  have hfs : e'.signal = e3.signal := by rw [he]
  have hftt : e'.t = e3.t := by rw [he]
  have halpha : e'.ema_alpha = α := by rw [ss2, rs2, he0]
  have hlen0 : e0.ema.length = e0.ema_alpha.length := by rw [he0]; exact hml
  have hlen' : e'.ema.length = e'.ema_alpha.length := ss6 (rs5 hlen0)
  have hpos' : e'.actual_position = 0 ∨ e'.actual_position = 1 ∨
      e'.actual_position = 2 := by
    refine ss7 (rs6 ?_)
    rw [he0]
    exact Or.inl rfl
  refine ⟨⟨cur, ?_, ?_⟩, ?_, hpos', ?_, ?_⟩
  · rw [hfs, hftt]; exact hc
  · rw [ho, hfe, hft, hfp]
  · have h3 : e3.ema.length = α.length := by rw [← hfe, hlen', halpha]
    rw [ho]
    simp only [List.length_cons, List.length_append, List.length_nil]
    omega
  · rcases hpos' with h | h | h
    · left; rw [h]; norm_num
    · right; left; rw [h]; norm_num
    · right; right; rw [h]; norm_num
  · have h00 : e0.reward = 0 := by rw [he0]
    have hre : e.reward = 0 := by
      rcases rs4 with h | h
      · exact h
      · rw [h, h00]
    rw [ss4, hre]

/-- C8 witness: the observation theorem applied to the first step of the
concrete constant-price run. -/
theorem C8_observation_witness :
    ([(0:ℚ), 0, 0, 0, -1] : List ℚ).length = ([(1:ℚ)] : List ℚ).length + 4 :=
  (C8_observation_shape sigW [1] 1 0 0 0 [] e0W e0W 0 [0, 0, 0, 0, -1] 0
    { e0W with t := 102 } (by decide) rfl (by decide)).2.1

/-- C9: confirmed — equal-length runs over the same series and decay rates
produce identical feature vectors whatever the fill probabilities, fees and
action sequences; and each step updates the features by exactly one
elementwise smoothing pass against the new price delta. -/
theorem C9_features_action_independent (sig α : List ℚ)
    (p1 f1 c1 r1 p2 f2 c2 r2 : ℚ) (as1 as2 : List ℕ) (e01 e02 ef1 ef2 : Env)
    (h01 : SimpleTrading.init sig α p1 f1 c1 r1 = some e01)
    (h02 : SimpleTrading.init sig α p2 f2 c2 r2 = some e02)
    (hlen : as1.length = as2.length)
    (h1 : runSteps e01 as1 = some ef1) (h2 : runSteps e02 as2 = some ef2) :
    ef1.ema = ef2.ema ∧ ef1.t = ef2.t ∧
    (∀ (e : Env) (a : ℕ) (o : List ℚ) (rew : ℚ) (e' : Env),
      step e a = some (o, rew, e') →
      ∃ cur prev, e.signal.get? (e.t + 1) = some cur ∧
        e.signal.get? e.t = some prev ∧
        e'.ema = List.zipWith (fun ai m => (1 - ai) * m + ai * (cur - prev))
          e.ema_alpha e.ema) := by
  have hss := runSteps_congr as1 as2 hlen _ _ _ _ (init_congr h01 h02) h1 h2
  obtain ⟨w1, w2, w3, w4⟩ := emaState_fields hss
  exact ⟨w4, w3, fun e a o rew e' h => step_ema h⟩

/-- C9 witness: one run under action 1 with fill probability 1, one under
action 0 with fill probability 0, same features. -/
theorem C9_features_witness : e1W.ema = e1Z.ema :=
  (C9_features_action_independent sigW [1] 1 0 0 0 0 0 0 0 [1] [0] e0W e0Z
    e1W e1Z (by decide) (by decide) rfl (by decide) (by decide)).1

/-- C10: confirmed — construction succeeds precisely when the series has at
least 101 elements (it reads indices 0 through 100, so any shorter
non-empty series fails), leaves the time index at 101, and the first `step`
then reads index 102: it succeeds precisely when the series has at least
103 elements. -/
theorem C10_construction_window (sig α : List ℚ) (p f c r : ℚ) :
    ((SimpleTrading.init sig α p f c r).isSome = true ↔ 101 ≤ sig.length) ∧
    (∀ e0 : Env, SimpleTrading.init sig α p f c r = some e0 →
      e0.t = 101 ∧ e0.signal = sig ∧
      ∀ a : ℕ, ((step e0 a).isSome = true ↔ 103 ≤ sig.length)) := by
  refine ⟨init_isSome_iff sig α p f c r, fun e0 h0 => ?_⟩
  obtain ⟨s1, s0, m, -, -, he0, -⟩ := init_eq_some h0
  have ht : e0.t = 101 := by rw [he0]
  have hsg : e0.signal = sig := by rw [he0]
  refine ⟨ht, hsg, fun a => ?_⟩
  rw [step_isSome_iff, ht, hsg]
  constructor
  · intro h; omega
  · intro h; omega
